import Mathlib

/-!
Verification of the Thai Character Cluster (TCC) segmenter in
`src/pythainlp/tokenize/tcc.py`.

Strings are modelled as lists of Unicode codepoints (`List Nat`), matching
Python 3 semantics where indexing, slicing and `len` are codepoint based.

The compiled pattern `PAT_TCC = re.compile("|".join(RE_TCC))` is modelled by a
small regular-expression language `RE` covering exactly the constructs used by
the source rules: single-codepoint character classes `[...]`, greedy optional
classes `[...]?`, concatenation, alternation `|` (leftmost preference), and the
trailing lookahead `(?=[...]|$)`.  The matcher `mtch` is a continuation-passing
backtracking matcher implementing Python `re` semantics for these star-free
constructs: alternatives are tried left to right, an optional element first
tries to consume and backtracks to the empty choice on failure, and `$`
(without `re.MULTILINE`) succeeds at the end of the string and also just
before a newline (U+000A) that is the last character of the string.
-/

/-- Character classes are finite unions of inclusive codepoint ranges. -/
def inCls (rs : List (Nat × Nat)) (c : Nat) : Bool :=
  rs.any fun r => r.1 ≤ c && c ≤ r.2

/-- Syntax of the regular-expression fragment used by `RE_TCC`. -/
inductive RE : Type where
  | eps : RE
  | cls : List (Nat × Nat) → RE
  | opt : List (Nat × Nat) → RE
  | seq : RE → RE → RE
  | alt : RE → RE → RE
  | look : List (Nat × Nat) → RE
deriving Repr

/-- Backtracking matcher in continuation-passing style.  `mtch r s k` tries to
match `r` against a prefix of `s` and passes the remaining suffix to the
continuation `k`; the first success in Python's backtracking order wins.  The
zero-width lookahead `(?=[...]|$)` succeeds when the next codepoint is in the
class, at end-of-input, or just before a newline (U+000A) that is the last
codepoint of the input — the latter because Python's `$` without
`re.MULTILINE` also matches before a terminating newline. -/
def mtch : RE → List Nat → (List Nat → Option (List Nat)) → Option (List Nat)
  | .eps, s, k => k s
  | .cls _, [], _ => none
  | .cls rs, c :: s, k => if inCls rs c then k s else none
  | .opt _, [], k => k []
  | .opt rs, c :: s, k =>
      if inCls rs c then (k s).orElse (fun _ => k (c :: s)) else k (c :: s)
  | .seq a b, s, k => mtch a s (fun t => mtch b t k)
  | .alt a b, s, k => (mtch a s k).orElse (fun _ => mtch b s k)
  | .look _, [], k => k []
  | .look rs, c :: s, k =>
      if inCls rs c || (c == 0x0A && s.isEmpty) then k (c :: s) else none

/-- Anchored match as performed by Python's `PAT_TCC.match(w[p:])`, returning
`m.span()[1]`, the number of codepoints matched. -/
def reMatch (r : RE) (s : List Nat) : Option Nat :=
  (mtch r s Option.some).map fun t => s.length - t.length

/-- Least number of codepoints a match of the expression can consume. -/
def minLen : RE → Nat
  | .eps => 0
  | .cls _ => 1
  | .opt _ => 0
  | .seq a b => minLen a + minLen b
  | .alt a b => min (minLen a) (minLen b)
  | .look _ => 0

/-- Greatest number of codepoints a match of the expression can consume. -/
def maxLen : RE → Nat
  | .eps => 0
  | .cls _ => 1
  | .opt _ => 1
  | .seq a b => maxLen a + maxLen b
  | .alt a b => max (maxLen a) (maxLen b)
  | .look _ => 0

/-- Codepoints that can be consumed by some consuming item of the expression. -/
def inChars : RE → Nat → Bool
  | .eps, _ => false
  | .cls rs, c => inCls rs c
  | .opt rs, c => inCls rs c
  | .seq a b, c => inChars a c || inChars b c
  | .alt a b, c => inChars a c || inChars b c
  | .look _, _ => false

/-- All codepoint ranges of consuming items occurring in the expression. -/
def clsRanges : RE → List (Nat × Nat)
  | .eps => []
  | .cls rs => rs
  | .opt rs => rs
  | .seq a b => clsRanges a ++ clsRanges b
  | .alt a b => clsRanges a ++ clsRanges b
  | .look _ => []

/-- Concatenation of a list of expressions. -/
def catRE (l : List RE) : RE := l.foldr RE.seq RE.eps

/-- Literal single codepoint. -/
def lit (n : Nat) : RE := RE.cls [(n, n)]

/-- Optional single codepoint, as in `า?`. -/
def opt1 (n : Nat) : RE := RE.opt [(n, n)]

/-- Template letter `c`, substituted by `[ก-ฮ]` (U+0E01–U+0E2E) in the source. -/
def consonantRanges : List (Nat × Nat) := [(0xE01, 0xE2E)]

/-- Template letter `t`, substituted by `[่-๋]?` (U+0E48–U+0E4B, optional). -/
def toneRanges : List (Nat × Nat) := [(0xE48, 0xE4B)]

/-- Class `[เ-ไก-ฮ]` of the lookahead `(?=[เ-ไก-ฮ]|$)`. -/
def laRanges : List (Nat × Nat) := [(0xE40, 0xE44), (0xE01, 0xE2E)]

/-- Occurrence of the consonant class `c` = `[ก-ฮ]`. -/
def rC : RE := RE.cls consonantRanges

/-- Occurrence of the optional tone class `t` = `[่-๋]?`. -/
def rT : RE := RE.opt toneRanges

/-- Rule 1, `เc็c`. -/
def r01 : RE := catRE [lit 0xE40, rC, lit 0xE47, rC]

/-- Rule 2, `เcctาะ`. -/
def r02 : RE := catRE [lit 0xE40, rC, rC, rT, lit 0xE32, lit 0xE30]

/-- Rule 3, `เccีtยะ`. -/
def r03 : RE := catRE [lit 0xE40, rC, rC, lit 0xE35, rT, lit 0xE22, lit 0xE30]

/-- Rule 4, `เccีtย(?=[เ-ไก-ฮ]|$)`. -/
def r04 : RE := catRE [lit 0xE40, rC, rC, lit 0xE35, rT, lit 0xE22, RE.look laRanges]

/-- Rule 5, `เcc็c`. -/
def r05 : RE := catRE [lit 0xE40, rC, rC, lit 0xE47, rC]

/-- Rule 6, `เcิc์c`. -/
def r06 : RE := catRE [lit 0xE40, rC, lit 0xE34, rC, lit 0xE4C, rC]

/-- Rule 7, `เcิtc`. -/
def r07 : RE := catRE [lit 0xE40, rC, lit 0xE34, rT, rC]

/-- Rule 8, `เcีtยะ?`. -/
def r08 : RE := catRE [lit 0xE40, rC, lit 0xE35, rT, lit 0xE22, opt1 0xE30]

/-- Rule 9, `เcืtอะ?`. -/
def r09 : RE := catRE [lit 0xE40, rC, lit 0xE37, rT, lit 0xE2D, opt1 0xE30]

/-- Rule 10, `เc[ิีุู]tย(?=[เ-ไก-ฮ]|$)`. -/
def r10 : RE :=
  catRE [lit 0xE40, rC, RE.cls [(0xE34, 0xE35), (0xE38, 0xE39)], rT, lit 0xE22,
    RE.look laRanges]

/-- Rule 11, `เctา?ะ?`. -/
def r11 : RE := catRE [lit 0xE40, rC, rT, opt1 0xE32, opt1 0xE30]

/-- Rule 12, `cัtวะ`. -/
def r12 : RE := catRE [rC, lit 0xE31, rT, lit 0xE27, lit 0xE30]

/-- Rule 13, `c[ัื]tc[ุิะ]?`. -/
def r13 : RE :=
  catRE [rC, RE.cls [(0xE31, 0xE31), (0xE37, 0xE37)], rT, rC,
    RE.opt [(0xE38, 0xE38), (0xE34, 0xE34), (0xE30, 0xE30)]]

/-- Rule 14, `c[ิุู]์`. -/
def r14 : RE := catRE [rC, RE.cls [(0xE34, 0xE34), (0xE38, 0xE39)], lit 0xE4C]

/-- Rule 15, `c[ะ-ู]t`. -/
def r15 : RE := catRE [rC, RE.cls [(0xE30, 0xE39)], rT]

/-- Rule 16, `c็`. -/
def r16 : RE := catRE [rC, lit 0xE47]

/-- Rule 17, `ct[ะาำ]?`. -/
def r17 : RE := catRE [rC, rT, RE.opt [(0xE30, 0xE30), (0xE32, 0xE33)]]

/-- Rule 18, `แc็c`. -/
def r18 : RE := catRE [lit 0xE41, rC, lit 0xE47, rC]

/-- Rule 19, `แcc์`. -/
def r19 : RE := catRE [lit 0xE41, rC, rC, lit 0xE4C]

/-- Rule 20, `แctะ`. -/
def r20 : RE := catRE [lit 0xE41, rC, rT, lit 0xE30]

/-- Rule 21, `แcc็c`. -/
def r21 : RE := catRE [lit 0xE41, rC, rC, lit 0xE47, rC]

/-- Rule 22, `แccc์`. -/
def r22 : RE := catRE [lit 0xE41, rC, rC, rC, lit 0xE4C]

/-- Rule 23, `โctะ`. -/
def r23 : RE := catRE [lit 0xE42, rC, rT, lit 0xE30]

/-- Rule 24, `[เ-ไ]ct`. -/
def r24 : RE := catRE [RE.cls [(0xE40, 0xE44)], rC, rT]

/-- The ordered Rule Table, as produced by splitting the source template. -/
def RE_TCC : List RE :=
  [r01, r02, r03, r04, r05, r06, r07, r08, r09, r10, r11, r12,
   r13, r14, r15, r16, r17, r18, r19, r20, r21, r22, r23, r24]

/-- Alternation of a list of rules, mirroring `"|".join(RE_TCC)`; the empty
list gives an expression that never matches. -/
def altList : List RE → RE
  | [] => RE.cls []
  | [r] => r
  | r :: rs => RE.alt r (altList rs)

/-- The compiled pattern `PAT_TCC = re.compile("|".join(RE_TCC))`. -/
def PAT_TCC : RE := altList RE_TCC

/-- Explicit priority loop described by the spec: try the rules of the Rule
Table in listed order and take the first rule that matches at the anchor. -/
def firstRuleMatch (s : List Nat) : Option Nat :=
  RE_TCC.findSome? fun r => reMatch r s

/-- Number of codepoints the scanner advances by at the current position:
the match length, or 1 when no rule matches (`n = m.span()[1]` / `n = 1`). -/
def tccStep (w : List Nat) : Nat :=
  match reMatch PAT_TCC w with
  | some n => n
  | none => 1

/-- Fuel-indexed unfolding of the scanner loop of `tcc_gen`; the fuel only
bounds the number of iterations, which the loop bounds by `len(w)` since the
cursor advances by at least one codepoint per iteration. -/
def tccGenFuel : Nat → List Nat → List (List Nat)
  | _, [] => []
  | 0, _ :: _ => []
  | fuel + 1, c :: cs =>
      (c :: cs).take (tccStep (c :: cs)) ::
        tccGenFuel fuel ((c :: cs).drop (tccStep (c :: cs)))

/-- The Cluster Scanner `tcc_gen(w)`: the list of clusters produced in order. -/
def tcc_gen (w : List Nat) : List (List Nat) := tccGenFuel w.length w

/-- Accumulation loop of `tcc_pos`: running offset `p`, inserting `p + len(w)`
for each produced cluster `w` into the set. -/
def posFold : List (List Nat) → Nat → Finset Nat
  | [], _ => ∅
  | cl :: rest, p => insert (p + cl.length) (posFold rest (p + cl.length))

/-- The Boundary Set `tcc_pos(text)`. -/
def tcc_pos (text : List Nat) : Finset Nat := posFold (tcc_gen text) 0

/-- Partial sums `p + l₁, p + l₁ + l₂, …` of a list of lengths, one per
nonempty prefix, in increasing order of prefix length. -/
def sumsFrom : Nat → List Nat → List Nat
  | _, [] => []
  | p, n :: ns => (p + n) :: sumsFrom (p + n) ns

/-- Strictly increasing partial sums of a list, from the spec's description of
the Boundary Set. -/
def cumSums (ls : List Nat) : List Nat := sumsFrom 0 ls

/-- Python's `sep.join(xs)`: the elements concatenated with `sep` between
consecutive elements, not before the first nor after the last. -/
def sepJoin (sep : List Nat) : List (List Nat) → List Nat
  | [] => []
  | [x] => x
  | x :: y :: ys => x ++ sep ++ sepJoin sep (y :: ys)

/-- The Joined String view `tcc(w, sep)` = `sep.join(tcc_gen(w))`. -/
def tcc (w : List Nat) (sep : List Nat) : List Nat := sepJoin sep (tcc_gen w)

/-- Acceptance of the trailing lookahead `(?=[เ-ไก-ฮ]|$)` of the source, as a
function of the text following the candidate match. -/
def lookAccept (rs : List (Nat × Nat)) (rest : List Nat) : Bool :=
  (mtch (RE.look rs) rest Option.some).isSome

/-- Acceptance condition asserted by the claim for the trailing lookahead, in
the claim's own words: the following text is accepted exactly when it does not
start with a leading-vowel consonant sequence (เ–ไ followed by ก–ฮ) and the
matched prefix does not end at end-of-input. -/
def claimedLookAccept : List Nat → Bool
  | [] => false
  | [_] => true
  | c1 :: c2 :: _ => !(inCls [(0xE40, 0xE44)] c1 && inCls consonantRanges c2)

/-- Soundness of the backtracking matcher: a successful run consumes a prefix
of `n` codepoints with `minLen r ≤ n ≤ maxLen r`, every consumed codepoint lies
in a consuming class of `r`, and the continuation was invoked on the remaining
suffix. -/
theorem mtch_sound (r : RE) :
    ∀ (s : List Nat) (k : List Nat → Option (List Nat)) (t : List Nat),
      mtch r s k = some t →
      ∃ n, n ≤ s.length ∧ k (s.drop n) = some t ∧ minLen r ≤ n ∧ n ≤ maxLen r ∧
        ∀ c ∈ s.take n, inChars r c = true := by
  induction r with
  | eps =>
      intro s k t h
      exact ⟨0, Nat.zero_le _, by simpa [mtch] using h, Nat.le_refl _, Nat.zero_le _,
        by simp⟩
  | cls rs =>
      intro s k t h
      cases s with
      | nil => simp [mtch] at h
      | cons c s =>
          by_cases hc : inCls rs c = true
          · refine ⟨1, by simp, ?_, Nat.le_refl _, Nat.le_refl _, ?_⟩
            · simpa [mtch, hc] using h
            · intro x hx
              simp at hx
              simpa [inChars, hx] using hc
          · simp [mtch, hc] at h
  | opt rs =>
      intro s k t h
      cases s with
      | nil =>
          exact ⟨0, Nat.zero_le _, by simpa [mtch] using h, Nat.le_refl _,
            Nat.zero_le _, by simp⟩
      | cons c s =>
          by_cases hc : inCls rs c = true
          · rw [mtch, if_pos hc] at h
            cases hk : k s with
            | some v =>
                rw [hk] at h
                simp [Option.orElse] at h
                refine ⟨1, by simp, ?_, Nat.zero_le _, Nat.le_refl _, ?_⟩
                · simpa [hk] using congrArg Option.some h
                · intro x hx
                  simp at hx
                  simpa [inChars, hx] using hc
            | none =>
                rw [hk] at h
                simp [Option.orElse] at h
                exact ⟨0, Nat.zero_le _, by simpa using h, Nat.le_refl _,
                  Nat.zero_le _, by simp⟩
          · rw [mtch, if_neg hc] at h
            exact ⟨0, Nat.zero_le _, by simpa using h, Nat.le_refl _, Nat.zero_le _,
              by simp⟩
  | seq a b iha ihb =>
      intro s k t h
      rw [mtch] at h
      obtain ⟨n₁, hn₁, hk₁, hmin₁, hmax₁, hch₁⟩ := iha s _ t h
      obtain ⟨n₂, hn₂, hk₂, hmin₂, hmax₂, hch₂⟩ := ihb (s.drop n₁) k t hk₁
      refine ⟨n₁ + n₂, ?_, ?_, ?_, ?_, ?_⟩
      · have hd : (s.drop n₁).length = s.length - n₁ := List.length_drop _ _
        omega
      · rw [List.drop_drop] at hk₂
        exact hk₂
      · exact Nat.add_le_add hmin₁ hmin₂
      · exact Nat.add_le_add hmax₁ hmax₂
      · intro c hc
        rw [List.take_add] at hc
        rcases List.mem_append.1 hc with h1 | h2
        · simp [inChars, hch₁ c h1]
        · simp [inChars, hch₂ c h2]
  | alt a b iha ihb =>
      intro s k t h
      rw [mtch] at h
      cases ha : mtch a s k with
      | some v =>
          rw [ha] at h
          simp [Option.orElse] at h
          subst h
          obtain ⟨n, hn, hk, hmin, hmax, hch⟩ := iha s k v ha
          exact ⟨n, hn, hk, Nat.le_trans (Nat.min_le_left _ _) hmin,
            Nat.le_trans hmax (Nat.le_max_left _ _),
            fun c hc => by simp [inChars, hch c hc]⟩
      | none =>
          rw [ha] at h
          simp [Option.orElse] at h
          obtain ⟨n, hn, hk, hmin, hmax, hch⟩ := ihb s k t h
          exact ⟨n, hn, hk, Nat.le_trans (Nat.min_le_right _ _) hmin,
            Nat.le_trans hmax (Nat.le_max_right _ _),
            fun c hc => by simp [inChars, hch c hc]⟩
  | look rs =>
      intro s k t h
      cases s with
      | nil =>
          exact ⟨0, Nat.zero_le _, by simpa [mtch] using h, Nat.le_refl _,
            Nat.zero_le _, by simp⟩
      | cons c s =>
          by_cases hc : (inCls rs c || (c == 0x0A && s.isEmpty)) = true
          · rw [mtch, if_pos hc] at h
            exact ⟨0, Nat.zero_le _, by simpa using h, Nat.le_refl _, Nat.zero_le _,
              by simp⟩
          · simp [mtch, hc] at h

/-- Soundness of anchored matching: a match of length `n` consumes at most the
whole suffix, respects the length bounds of the expression, and consumes only
codepoints from the expression's consuming classes. -/
theorem reMatch_sound (r : RE) (s : List Nat) (n : Nat) (h : reMatch r s = some n) :
    minLen r ≤ n ∧ n ≤ maxLen r ∧ n ≤ s.length ∧
      ∀ c ∈ s.take n, inChars r c = true := by
  unfold reMatch at h
  cases hm : mtch r s Option.some with
  | none => rw [hm] at h; simp at h
  | some t =>
      rw [hm] at h
      simp at h
      obtain ⟨m, hms, hk, hmin, hmax, hch⟩ := mtch_sound r s Option.some t hm
      have ht : t = s.drop m := by
        have := hk
        simpa using this.symm
      have hlen : t.length = s.length - m := by
        rw [ht]; exact List.length_drop _ _
      have hn : n = m := by omega
      subst hn
      exact ⟨hmin, hmax, hms, hch⟩

/-- A match of the compiled pattern never has length zero. -/
theorem reMatch_PAT_pos (s : List Nat) (n : Nat) (h : reMatch PAT_TCC s = some n) :
    1 ≤ n := by
  have hmin : minLen PAT_TCC = 1 := by decide
  have := (reMatch_sound PAT_TCC s n h).1
  omega

/-- The scanner advances by at least one codepoint at every position. -/
theorem tccStep_pos (w : List Nat) : 1 ≤ tccStep w := by
  unfold tccStep
  cases h : reMatch PAT_TCC w with
  | none => exact Nat.le_refl 1
  | some n => exact reMatch_PAT_pos w n h

/-- On a nonempty suffix the scanner never advances past the end of the input. -/
theorem tccStep_le (w : List Nat) (hw : w ≠ []) : tccStep w ≤ w.length := by
  unfold tccStep
  cases h : reMatch PAT_TCC w with
  | none =>
      cases w with
      | nil => exact absurd rfl hw
      | cons c cs => simp
  | some n => exact (reMatch_sound PAT_TCC w n h).2.2.1

/-- The scanner advances by at most seven codepoints at every position. -/
theorem tccStep_le_seven (w : List Nat) : tccStep w ≤ 7 := by
  cases h : reMatch PAT_TCC w with
  | none => simp [tccStep, h]
  | some n =>
      have hmax : maxLen PAT_TCC = 7 := by decide
      have h2 := (reMatch_sound PAT_TCC w n h).2.1
      simp [tccStep, h]
      omega

/-- The fuel argument of `tccGenFuel` is irrelevant once it reaches the number
of codepoints left, which bounds the number of remaining loop iterations. -/
theorem tccGenFuel_fuel :
    ∀ (f₁ f₂ : Nat) (w : List Nat), w.length ≤ f₁ → w.length ≤ f₂ →
      tccGenFuel f₁ w = tccGenFuel f₂ w := by
  intro f₁
  induction f₁ with
  | zero =>
      intro f₂ w h₁ h₂
      cases w with
      | nil => cases f₂ <;> rfl
      | cons c cs => simp at h₁
  | succ f ih =>
      intro f₂ w h₁ h₂
      cases w with
      | nil => cases f₂ <;> rfl
      | cons c cs =>
          cases f₂ with
          | zero => simp at h₂
          | succ f' =>
              rw [tccGenFuel, tccGenFuel]
              have hstep : 1 ≤ tccStep (c :: cs) := tccStep_pos (c :: cs)
              have hlen : ((c :: cs).drop (tccStep (c :: cs))).length =
                  (c :: cs).length - tccStep (c :: cs) := List.length_drop _ _
              have hcc : (c :: cs).length = cs.length + 1 := by simp
              have h1 : ((c :: cs).drop (tccStep (c :: cs))).length ≤ f := by
                omega
              have h2 : ((c :: cs).drop (tccStep (c :: cs))).length ≤ f' := by
                omega
              rw [ih f' _ h1 h2]

/-- Unfolding of the scanner loop: on a nonempty input, the first cluster is
the `tccStep`-codepoint prefix and the rest is the scan of the remainder. -/
theorem tcc_gen_cons (c : Nat) (cs : List Nat) :
    tcc_gen (c :: cs) =
      (c :: cs).take (tccStep (c :: cs)) ::
        tcc_gen ((c :: cs).drop (tccStep (c :: cs))) := by
  unfold tcc_gen
  rw [show (c :: cs).length = cs.length + 1 from rfl, tccGenFuel]
  have hstep : 1 ≤ tccStep (c :: cs) := tccStep_pos (c :: cs)
  have hlen : ((c :: cs).drop (tccStep (c :: cs))).length =
      (c :: cs).length - tccStep (c :: cs) := List.length_drop _ _
  have hcc : (c :: cs).length = cs.length + 1 := by simp
  have h1 : ((c :: cs).drop (tccStep (c :: cs))).length ≤ cs.length := by
    omega
  rw [tccGenFuel_fuel cs.length _ _ h1 (Nat.le_refl _)]

/-- Concatenating the clusters of the fuel-indexed scan reproduces the input. -/
theorem tccGenFuel_flatten :
    ∀ (f : Nat) (w : List Nat), w.length ≤ f → (tccGenFuel f w).flatten = w := by
  intro f
  induction f with
  | zero =>
      intro w h
      cases w with
      | nil => rfl
      | cons c cs => simp at h
  | succ f ih =>
      intro w h
      cases w with
      | nil => rfl
      | cons c cs =>
          rw [tccGenFuel, List.flatten_cons]
          have hstep : 1 ≤ tccStep (c :: cs) := tccStep_pos (c :: cs)
          have hlen : ((c :: cs).drop (tccStep (c :: cs))).length =
              (c :: cs).length - tccStep (c :: cs) := List.length_drop _ _
          have hcc : (c :: cs).length = cs.length + 1 := by simp
          have h1 : ((c :: cs).drop (tccStep (c :: cs))).length ≤ f := by omega
          rw [ih _ h1]
          exact List.take_append_drop _ _

/-- Every cluster of the fuel-indexed scan has between 1 and 7 codepoints, and
is either entirely built of rule-class codepoints or is a single codepoint. -/
theorem tccGenFuel_mem :
    ∀ (f : Nat) (w : List Nat) (cl : List Nat), w.length ≤ f →
      cl ∈ tccGenFuel f w →
      (1 ≤ cl.length ∧ cl.length ≤ 7 ∧
        ((∀ c ∈ cl, inChars PAT_TCC c = true) ∨ ∃ c, cl = [c])) := by
  intro f
  induction f with
  | zero =>
      intro w cl h hm
      cases w with
      | nil => simp [tccGenFuel] at hm
      | cons c cs => simp at h
  | succ f ih =>
      intro w cl h hm
      cases w with
      | nil => simp [tccGenFuel] at hm
      | cons c cs =>
          rw [tccGenFuel] at hm
          have hstep : 1 ≤ tccStep (c :: cs) := tccStep_pos (c :: cs)
          have hlen : ((c :: cs).drop (tccStep (c :: cs))).length =
              (c :: cs).length - tccStep (c :: cs) := List.length_drop _ _
          have hcc : (c :: cs).length = cs.length + 1 := by simp
          rcases List.mem_cons.1 hm with hhd | htl
          · subst hhd
            have hstep7 : tccStep (c :: cs) ≤ 7 := tccStep_le_seven (c :: cs)
            have htake : ((c :: cs).take (tccStep (c :: cs))).length =
                min (tccStep (c :: cs)) (c :: cs).length := List.length_take _ _
            refine ⟨by omega, by omega, ?_⟩
            cases hre : reMatch PAT_TCC (c :: cs) with
            | some n =>
                left
                intro x hx
                have hn : tccStep (c :: cs) = n := by simp [tccStep, hre]
                rw [hn] at hx
                exact (reMatch_sound PAT_TCC (c :: cs) n hre).2.2.2 x hx
            | none =>
                right
                have hn : tccStep (c :: cs) = 1 := by simp [tccStep, hre]
                rw [hn]
                exact ⟨c, rfl⟩
          · have h1 : ((c :: cs).drop (tccStep (c :: cs))).length ≤ f := by omega
            exact ih _ cl h1 htl

/-- The fuel-indexed scan produces at most one cluster per input codepoint. -/
theorem tccGenFuel_count :
    ∀ (f : Nat) (w : List Nat), w.length ≤ f →
      (tccGenFuel f w).length ≤ w.length := by
  intro f
  induction f with
  | zero =>
      intro w h
      cases w with
      | nil => simp [tccGenFuel]
      | cons c cs => simp at h
  | succ f ih =>
      intro w h
      cases w with
      | nil => simp [tccGenFuel]
      | cons c cs =>
          rw [tccGenFuel]
          have hstep : 1 ≤ tccStep (c :: cs) := tccStep_pos (c :: cs)
          have hlen : ((c :: cs).drop (tccStep (c :: cs))).length =
              (c :: cs).length - tccStep (c :: cs) := List.length_drop _ _
          have hcc : (c :: cs).length = cs.length + 1 := by simp
          have h1 : ((c :: cs).drop (tccStep (c :: cs))).length ≤ f := by omega
          have := ih _ h1
          simp only [List.length_cons]
          omega

/-- Losslessness at the level of `tcc_gen`. -/
theorem tcc_gen_flatten (w : List Nat) : (tcc_gen w).flatten = w :=
  tccGenFuel_flatten w.length w (Nat.le_refl _)

/-- Cluster shape at the level of `tcc_gen`. -/
theorem tcc_gen_mem (w : List Nat) (cl : List Nat) (hm : cl ∈ tcc_gen w) :
    1 ≤ cl.length ∧ cl.length ≤ 7 ∧
      ((∀ c ∈ cl, inChars PAT_TCC c = true) ∨ ∃ c, cl = [c]) :=
  tccGenFuel_mem w.length w cl (Nat.le_refl _) hm

/-- Cluster count at the level of `tcc_gen`. -/
theorem tcc_gen_count (w : List Nat) : (tcc_gen w).length ≤ w.length :=
  tccGenFuel_count w.length w (Nat.le_refl _)

/-- Alternation of the engine is left-biased choice on anchored matches. -/
theorem reMatch_alt (a b : RE) (s : List Nat) :
    reMatch (RE.alt a b) s = (reMatch a s).orElse fun _ => reMatch b s := by
  unfold reMatch
  rw [mtch]
  cases ha : mtch a s Option.some with
  | some v => simp [Option.orElse]
  | none => simp [Option.orElse]

/-- The empty character class never matches. -/
theorem reMatch_clsNil (s : List Nat) : reMatch (RE.cls []) s = none := by
  cases s with
  | nil => rfl
  | cons c cs => simp [reMatch, mtch, inCls]

/-- The single compiled alternation behaves as an explicit loop trying the
rules in listed order and returning the first anchored match. -/
theorem reMatch_altList (rs : List RE) (s : List Nat) :
    reMatch (altList rs) s = rs.findSome? fun r => reMatch r s := by
  induction rs with
  | nil => simp [altList, reMatch_clsNil]
  | cons r rs ih =>
      cases rs with
      | nil =>
          simp only [altList, List.findSome?]
          cases reMatch r s <;> rfl
      | cons r2 rs2 =>
          rw [show altList (r :: r2 :: rs2) = RE.alt r (altList (r2 :: rs2)) from rfl,
            reMatch_alt, ih]
          simp only [List.findSome?]
          cases reMatch r s <;> rfl

/-- Accumulating boundary offsets into the set is the same as collecting the
partial sums of the cluster lengths. -/
theorem posFold_eq :
    ∀ (ls : List (List Nat)) (p : Nat),
      posFold ls p = (sumsFrom p (ls.map List.length)).toFinset := by
  intro ls
  induction ls with
  | nil => intro p; rfl
  | cons cl rest ih =>
      intro p
      rw [posFold, List.map_cons, sumsFrom, List.toFinset_cons, ih]

/-- Every partial sum of positive summands strictly exceeds the base offset. -/
theorem sumsFrom_gt :
    ∀ (ls : List Nat) (p m : Nat), (∀ n ∈ ls, 1 ≤ n) → m ∈ sumsFrom p ls →
      p < m := by
  intro ls
  induction ls with
  | nil => intro p m _ hm; simp [sumsFrom] at hm
  | cons n ns ih =>
      intro p m h1 hm
      rw [sumsFrom] at hm
      rcases List.mem_cons.1 hm with h | h
      · have : 1 ≤ n := h1 n (by simp)
        omega
      · have := ih (p + n) m (fun x hx => h1 x (by simp [hx])) h
        have : 1 ≤ n := h1 n (by simp)
        omega

/-- Every partial sum is bounded by the base offset plus the total sum. -/
theorem sumsFrom_le :
    ∀ (ls : List Nat) (p m : Nat), m ∈ sumsFrom p ls → m ≤ p + ls.sum := by
  intro ls
  induction ls with
  | nil => intro p m hm; simp [sumsFrom] at hm
  | cons n ns ih =>
      intro p m hm
      rw [sumsFrom] at hm
      rcases List.mem_cons.1 hm with h | h
      · simp [h, List.sum_cons]
      · have := ih (p + n) m h
        simp [List.sum_cons]
        omega

/-- The partial sums of positive summands are strictly increasing. -/
theorem sumsFrom_pairwise :
    ∀ (ls : List Nat) (p : Nat), (∀ n ∈ ls, 1 ≤ n) →
      List.Pairwise (· < ·) (sumsFrom p ls) := by
  intro ls
  induction ls with
  | nil => intro p _; simp [sumsFrom]
  | cons n ns ih =>
      intro p h1
      rw [sumsFrom]
      refine List.Pairwise.cons ?_ (ih (p + n) fun x hx => h1 x (by simp [hx]))
      intro m hm
      exact sumsFrom_gt ns (p + n) m (fun x hx => h1 x (by simp [hx])) hm

/-- For a nonempty list the total sum is one of the partial sums. -/
theorem sumsFrom_total_mem :
    ∀ (ls : List Nat) (p : Nat), ls ≠ [] → p + ls.sum ∈ sumsFrom p ls := by
  intro ls
  induction ls with
  | nil => intro p h; exact absurd rfl h
  | cons n ns ih =>
      intro p _
      rw [sumsFrom]
      cases ns with
      | nil => simp
      | cons m ms =>
          have h2 := ih (p + n) (by simp)
          rw [List.sum_cons, ← Nat.add_assoc]
          exact List.mem_cons_of_mem _ h2

/-- Python's `sep.join` equals list intercalation. -/
theorem sepJoin_intercalate :
    ∀ (sep : List Nat) (l : List (List Nat)),
      sepJoin sep l = List.intercalate sep l := by
  intro sep l
  induction l with
  | nil => simp [sepJoin, List.intercalate, List.intersperse]
  | cons x xs ih =>
      cases xs with
      | nil => simp [sepJoin, List.intercalate, List.intersperse]
      | cons y ys =>
          rw [sepJoin, ih]
          simp [List.intercalate, List.intersperse]

/-- A codepoint consumable by the expression lies in one of its ranges. -/
theorem inChars_ranges (r : RE) (c : Nat) (h : inChars r c = true) :
    ∃ pr ∈ clsRanges r, pr.1 ≤ c ∧ c ≤ pr.2 := by
  induction r with
  | eps => simp [inChars] at h
  | cls rs =>
      rw [inChars, inCls] at h
      simpa [clsRanges] using List.any_eq_true.1 h
  | opt rs =>
      rw [inChars, inCls] at h
      simpa [clsRanges] using List.any_eq_true.1 h
  | seq a b iha ihb =>
      rw [inChars, Bool.or_eq_true] at h
      rcases h with h | h
      · obtain ⟨pr, hpr, hb⟩ := iha h
        exact ⟨pr, by simp [clsRanges, hpr], hb⟩
      · obtain ⟨pr, hpr, hb⟩ := ihb h
        exact ⟨pr, by simp [clsRanges, hpr], hb⟩
  | alt a b iha ihb =>
      rw [inChars, Bool.or_eq_true] at h
      rcases h with h | h
      · obtain ⟨pr, hpr, hb⟩ := iha h
        exact ⟨pr, by simp [clsRanges, hpr], hb⟩
      · obtain ⟨pr, hpr, hb⟩ := ihb h
        exact ⟨pr, by simp [clsRanges, hpr], hb⟩
  | look rs => simp [inChars] at h

/-- Every codepoint any rule of the table can consume lies in the Thai block
slice U+0E01–U+0E4C. -/
theorem inChars_PAT_bound (c : Nat) (h : inChars PAT_TCC c = true) :
    0xE01 ≤ c ∧ c ≤ 0xE4C := by
  obtain ⟨pr, hpr, h1, h2⟩ := inChars_ranges PAT_TCC c h
  have hall : ∀ pr ∈ clsRanges PAT_TCC, 0xE01 ≤ pr.1 ∧ pr.2 ≤ 0xE4C := by decide
  have := hall pr hpr
  omega

/-- Characterization of the source's trailing lookahead `(?=[...]|$)`: the
candidate is accepted exactly when the following text is empty, is exactly one
terminating newline (Python's `$` also matches just before a final newline),
or starts with a codepoint of the lookahead class. -/
theorem lookAccept_iff (rs : List (Nat × Nat)) (rest : List Nat) :
    lookAccept rs rest = true ↔
      (rest = [] ∨ rest = [0x0A] ∨ ∃ c t, rest = c :: t ∧ inCls rs c = true) := by
  cases rest with
  | nil => simp [lookAccept, mtch]
  | cons c t =>
      rw [lookAccept, mtch]
      by_cases hc : (inCls rs c || (c == 0x0A && t.isEmpty)) = true
      · rw [if_pos hc]
        refine ⟨fun _ => ?_, fun _ => rfl⟩
        have hor : inCls rs c = true ∨ (c = 0x0A ∧ t = []) := by
          simpa using hc
        rcases hor with h1 | ⟨hc0, ht0⟩
        · exact Or.inr (Or.inr ⟨c, t, rfl, h1⟩)
        · subst hc0
          subst ht0
          exact Or.inr (Or.inl rfl)
      · rw [if_neg hc]
        constructor
        · intro h0
          exact absurd h0 (by simp)
        · rintro (h | h | ⟨c2, t2, heq, hin⟩)
          · exact absurd h (List.cons_ne_nil c t)
          · injection h with h1 h2
            subst h1
            subst h2
            exact absurd (by simp) hc
          · injection heq with h1 h2
            subst h1
            exact absurd (by simp [hin]) hc

/-- C1: for every input text, concatenating in order the clusters produced by
the Cluster Scanner `tcc_gen` reproduces the input text exactly, and every
cluster is nonempty, so the clusters form a gapless, overlap-free,
left-to-right partition of the input. -/
theorem claim_C1 (w : List Nat) :
    (tcc_gen w).flatten = w ∧ ∀ cl ∈ tcc_gen w, 1 ≤ cl.length := by
  refine ⟨tcc_gen_flatten w, ?_⟩
  intro cl hcl
  exact (tcc_gen_mem w cl hcl).1

/-- Witness for C1 at the concrete input `ป`. -/
theorem claim_C1_witness :
    (tcc_gen [0xE1B]).flatten = [0xE1B] ∧ 1 ≤ ([0xE1B] : List Nat).length :=
  ⟨(claim_C1 [0xE1B]).1, (claim_C1 [0xE1B]).2 [0xE1B] (by decide)⟩

/-- C2: the single compiled alternation `PAT_TCC` is equivalent, on every
input, to an explicit loop trying the rules in listed priority order and
taking the first anchored match; moreover when the pattern matches `n`
codepoints the scanner produces exactly that `n`-codepoint prefix as the
cluster and continues after it. -/
theorem claim_C2 :
    (∀ s, reMatch PAT_TCC s = firstRuleMatch s) ∧
      (∀ w n, reMatch PAT_TCC w = some n →
        tcc_gen w = w.take n :: tcc_gen (w.drop n)) := by
  constructor
  · intro s
    exact reMatch_altList RE_TCC s
  · intro w n h
    cases w with
    | nil =>
        have h1 := reMatch_PAT_pos [] n h
        have h2 := (reMatch_sound PAT_TCC [] n h).2.2.1
        simp at h2
        omega
    | cons c cs =>
        have hn : tccStep (c :: cs) = n := by simp [tccStep, h]
        rw [tcc_gen_cons, hn]

/-- Witness for C2 at the concrete input `ระ`, matched by rule `c[ะ-ู]t`. -/
theorem claim_C2_witness : tcc_gen [0xE23, 0xE30] = [[0xE23, 0xE30]] := by
  have h := claim_C2.2 [0xE23, 0xE30] 2 (by decide)
  simpa using h

/-- C3: `tcc_pos` is exactly the set of strictly increasing partial sums of
the cluster lengths; it never contains 0, its elements are bounded by the
codepoint length of the input, it contains the input length whenever the
input is nonempty, and it is empty on the empty input. -/
theorem claim_C3 (text : List Nat) :
    tcc_pos text = (cumSums ((tcc_gen text).map List.length)).toFinset ∧
      List.Pairwise (· < ·) (cumSums ((tcc_gen text).map List.length)) ∧
      (∀ m ∈ tcc_pos text, 1 ≤ m ∧ m ≤ text.length) ∧
      (text ≠ [] → text.length ∈ tcc_pos text) ∧
      (text = [] → tcc_pos text = ∅) := by
  have hpos : ∀ n ∈ (tcc_gen text).map List.length, 1 ≤ n := by
    intro n hn
    obtain ⟨cl, hcl, hrfl⟩ := List.mem_map.1 hn
    rw [← hrfl]
    exact (tcc_gen_mem text cl hcl).1
  have hsum : ((tcc_gen text).map List.length).sum = text.length := by
    rw [← List.length_flatten, tcc_gen_flatten]
  have heq : tcc_pos text = (cumSums ((tcc_gen text).map List.length)).toFinset :=
    posFold_eq (tcc_gen text) 0
  refine ⟨heq, sumsFrom_pairwise _ 0 hpos, ?_, ?_, ?_⟩
  · intro m hm
    rw [heq, List.mem_toFinset] at hm
    have h1 := sumsFrom_gt _ 0 m hpos hm
    have h2 := sumsFrom_le _ 0 m hm
    omega
  · intro ht
    have hne : (tcc_gen text).map List.length ≠ [] := by
      intro hcon
      cases hg : tcc_gen text with
      | nil =>
          have hflat := tcc_gen_flatten text
          rw [hg] at hflat
          simp at hflat
          exact ht hflat
      | cons a l =>
          rw [hg] at hcon
          simp at hcon
    have hmem := sumsFrom_total_mem _ 0 hne
    rw [Nat.zero_add, hsum] at hmem
    rw [heq, List.mem_toFinset]
    exact hmem
  · intro ht
    rw [ht]
    rfl

/-- Witness for C3 at the concrete input `ประ`: the full length 3 is a
boundary offset of the nonempty input. -/
theorem claim_C3_witness : (3 : Nat) ∈ tcc_pos [0xE1B, 0xE23, 0xE30] := by
  have h := (claim_C3 [0xE1B, 0xE23, 0xE30]).2.2.2.1 (by decide)
  simpa using h

/-- C4: at a scan position where no rule matches, the produced cluster is
exactly the single codepoint at that position; every codepoint outside the
codepoint classes used by the Rule Table (all of which lie in U+0E01–U+0E4C)
is only ever produced as its own one-codepoint cluster; and
`tcc("abc123", "/") = "a/b/c/1/2/3"`. -/
theorem claim_C4 :
    (∀ (w : List Nat) (c : Nat) (cs : List Nat), w = c :: cs →
        reMatch PAT_TCC w = none → tcc_gen w = [c] :: tcc_gen cs) ∧
      (∀ (w cl : List Nat) (c : Nat), cl ∈ tcc_gen w → c ∈ cl →
        inChars PAT_TCC c = false → cl = [c]) ∧
      (∀ c, inChars PAT_TCC c = true → 0xE01 ≤ c ∧ c ≤ 0xE4C) ∧
      tcc [0x61, 0x62, 0x63, 0x31, 0x32, 0x33] [0x2F] =
        [0x61, 0x2F, 0x62, 0x2F, 0x63, 0x2F, 0x31, 0x2F, 0x32, 0x2F, 0x33] := by
  refine ⟨?_, ?_, inChars_PAT_bound, by decide⟩
  · intro w c cs hw h
    subst hw
    have hn : tccStep (c :: cs) = 1 := by simp [tccStep, h]
    rw [tcc_gen_cons, hn]
    simp
  · intro w cl c hcl hc hfalse
    rcases (tcc_gen_mem w cl hcl).2.2 with hall | ⟨c0, hc0⟩
    · have := hall c hc
      rw [hfalse] at this
      exact absurd this (by simp)
    · subst hc0
      simp at hc
      rw [hc]

/-- Witness for C4 at the concrete input `aก`: no rule matches at `a`, so the
cluster is the single codepoint `a`. -/
theorem claim_C4_witness : tcc_gen [0x61, 0xE01] = [0x61] :: tcc_gen [0xE01] :=
  claim_C4.1 [0x61, 0xE01] 0x61 [0xE01] rfl (by decide)

/-- C5 counterexample: the source lookahead `(?=[เ-ไก-ฮ]|$)` accepts at
end-of-input and rejects a following `a`, while the claim's condition rejects
at end-of-input and accepts a following `a`; concretely, on `เกกีย` rule 4
matches all 5 codepoints with its lookahead succeeding on the empty remainder,
and the scanner emits the whole input as one cluster. -/
theorem claim_C5_counterexample :
    lookAccept laRanges [] = true ∧ claimedLookAccept [] = false ∧
      lookAccept laRanges [0x61] = false ∧ claimedLookAccept [0x61] = true ∧
      reMatch r04 [0xE40, 0xE01, 0xE01, 0xE35, 0xE22] = some 5 ∧
      tcc_gen [0xE40, 0xE01, 0xE01, 0xE35, 0xE22] =
        [[0xE40, 0xE01, 0xE01, 0xE35, 0xE22]] := by
  decide

/-- C5 amended: a candidate match of a rule carrying the trailing lookahead is
accepted exactly when the codepoint immediately following the matched prefix
is a leading vowel เ–ไ or lies in the consonant block ก–ฮ, or the matched
prefix ends at end-of-input, or the only codepoint after the matched prefix is
a terminating newline (Python's `$` also matches just before a final newline);
when the lookahead fails the whole rule fails, and the alternation continues
with the next rule.  On `เกกีย\n` the lookahead of rule 4 accepts before the
final newline, so the scanner emits `เกกีย` and then `\n`. -/
theorem claim_C5 :
    (∀ rest, lookAccept laRanges rest = true ↔
        (rest = [] ∨ rest = [0x0A] ∨
          ∃ c t, rest = c :: t ∧ inCls laRanges c = true)) ∧
      (∀ c, inCls laRanges c = true ↔
        ((0xE40 ≤ c ∧ c ≤ 0xE44) ∨ (0xE01 ≤ c ∧ c ≤ 0xE2E))) ∧
      (∀ a b s, reMatch a s = none →
        reMatch (RE.alt a b) s = reMatch b s) ∧
      tcc_gen [0xE40, 0xE01, 0xE01, 0xE35, 0xE22, 0x0A] =
        [[0xE40, 0xE01, 0xE01, 0xE35, 0xE22], [0x0A]] := by
  refine ⟨fun rest => lookAccept_iff laRanges rest, ?_, ?_, by decide⟩
  · intro c
    simp [inCls, laRanges]
  · intro a b s h
    rw [reMatch_alt, h]
    rfl

/-- Witness for C5 at concrete inputs: rule `เc็c` fails on the lone `ก`, so
the alternation with `ct[ะาำ]?` behaves as that second rule. -/
theorem claim_C5_witness : reMatch (RE.alt r01 r17) [0xE01] = reMatch r17 [0xE01] :=
  claim_C5.2.2.1 r01 r17 [0xE01] (by decide)

/-- C6 counterexample: the consonant class `[ก-ฮ]` of the Rule Table matches
46 distinct codepoints, not 44; in particular it matches ฤ (U+0E24) and
ฦ (U+0E26). -/
theorem claim_C6_counterexample :
    inCls consonantRanges 0xE24 = true ∧ inCls consonantRanges 0xE26 = true ∧
      ((Finset.Icc 0xE01 0xE2E).filter fun c => inCls consonantRanges c = true).card
        = 46 := by
  decide

/-- C6 amended: each occurrence of the CONSONANT class matches exactly the 46
codepoints of the contiguous block ก–ฮ (U+0E01–U+0E2E), which comprises the 44
traditional Thai consonants together with ฤ and ฦ, and no other codepoint;
each occurrence of the TONE? class optionally (zero or one occurrences)
matches exactly one of the 4 tone-mark codepoints U+0E48–U+0E4B and no other
codepoint. -/
theorem claim_C6 :
    (∀ c, inCls consonantRanges c = true ↔ (0xE01 ≤ c ∧ c ≤ 0xE2E)) ∧
      (∀ c, inCls toneRanges c = true ↔ (0xE48 ≤ c ∧ c ≤ 0xE4B)) ∧
      (Finset.Icc (0xE01 : Nat) 0xE2E).card = 46 ∧
      (Finset.Icc (0xE48 : Nat) 0xE4B).card = 4 ∧
      minLen rT = 0 ∧ maxLen rT = 1 := by
  refine ⟨?_, ?_, by decide, by decide, rfl, rfl⟩
  · intro c
    simp [inCls, consonantRanges]
  · intro c
    simp [inCls, toneRanges]

/-- C7: the scan terminates because the cursor advances by at least one
codepoint per iteration and never past the end of the input; consequently
every produced cluster is nonempty and at most `len(w)` clusters are
produced. -/
theorem claim_C7 (w : List Nat) :
    1 ≤ tccStep w ∧ (w ≠ [] → tccStep w ≤ w.length) ∧
      (tcc_gen w).length ≤ w.length ∧ ∀ cl ∈ tcc_gen w, 1 ≤ cl.length := by
  refine ⟨tccStep_pos w, tccStep_le w, tcc_gen_count w, ?_⟩
  intro cl hcl
  exact (tcc_gen_mem w cl hcl).1

/-- Witness for C7 at the concrete input `ก`. -/
theorem claim_C7_witness : tccStep [0xE01] ≤ ([0xE01] : List Nat).length :=
  (claim_C7 [0xE01]).2.1 (by decide)

/-- C8: the empty string maps to the empty result under every operation:
`tcc_gen("")` yields no clusters, `tcc_pos("")` is the empty set, and
`tcc("", sep)` is the empty string for every separator. -/
theorem claim_C8 :
    tcc_gen ([] : List Nat) = [] ∧ tcc_pos [] = ∅ ∧
      ∀ sep : List Nat, tcc [] sep = [] :=
  ⟨rfl, rfl, fun _ => rfl⟩

/-- C9: `tcc(text, sep)` is the clusters of `text` concatenated with `sep`
inserted exactly between consecutive clusters (intercalation); in particular
`tcc("ประเทศไทย", "/") = "ป/ระ/เท/ศ/ไท/ย"`. -/
theorem claim_C9 :
    (∀ (w sep : List Nat), tcc w sep = List.intercalate sep (tcc_gen w)) ∧
      tcc [0xE1B, 0xE23, 0xE30, 0xE40, 0xE17, 0xE28, 0xE44, 0xE17, 0xE22]
          [0x2F] =
        [0xE1B, 0x2F, 0xE23, 0xE30, 0x2F, 0xE40, 0xE17, 0x2F, 0xE28, 0x2F,
         0xE44, 0xE17, 0x2F, 0xE22] :=
  ⟨fun w sep => sepJoin_intercalate sep (tcc_gen w), by decide⟩

/-- C10: every produced cluster has between 1 and 7 codepoints; no rule
template can span more than 7 codepoints, and the longest rule `เccีtยะ`
attains 7 on `เกกี่ยะ`, which the scanner emits as a single cluster. -/
theorem claim_C10 :
    (∀ (w cl : List Nat), cl ∈ tcc_gen w → 1 ≤ cl.length ∧ cl.length ≤ 7) ∧
      maxLen PAT_TCC = 7 ∧
      reMatch PAT_TCC [0xE40, 0xE01, 0xE01, 0xE35, 0xE48, 0xE22, 0xE30] =
        some 7 ∧
      tcc_gen [0xE40, 0xE01, 0xE01, 0xE35, 0xE48, 0xE22, 0xE30] =
        [[0xE40, 0xE01, 0xE01, 0xE35, 0xE48, 0xE22, 0xE30]] := by
  refine ⟨?_, by decide, by decide, by decide⟩
  intro w cl hcl
  exact ⟨(tcc_gen_mem w cl hcl).1, (tcc_gen_mem w cl hcl).2.1⟩

/-- Witness for C10 at the concrete input `ป`. -/
theorem claim_C10_witness :
    1 ≤ ([0xE1B] : List Nat).length ∧ ([0xE1B] : List Nat).length ≤ 7 :=
  claim_C10.1 [0xE1B] [0xE1B] (by decide)
